import Mathlib

/-!
# A verification model of the sininen transcript-search core

This file is a shallow embedding of the algorithmic core of the repository
(`parse.go` and `search.go`): the transcript encoder, the segment locator,
the hit aggregator and the result ranker, together with theorems about the
claims made by the design specification.

Modelling conventions:
* Go `float64` values stored in a segment table are modelled as exact
  rationals (`ℚ`); every value the encoder stores is either an integral
  character offset or a duration divided by `1e9`, and the concrete values
  handled in this file are exactly representable in `float64`, so the
  rational model agrees with the float computation on everything stated.
* Go `time.Duration` is an `Int` number of nanoseconds.
* A Go function returning `(T, error)` is modelled with `GoOutcome`;
  a Go runtime panic (out-of-range slice index) is the distinguished
  outcome `panicked`.
* Go string comparison is byte-wise lexicographic on the UTF-8 encoding,
  which coincides with code-point lexicographic order, modelled as the
  order on `String.data : List Char`.
* Go map iteration order is unspecified; maps of raw hit locations are
  modelled as association lists, covering one (arbitrary) iteration order.
* `sort.Slice` and `sort.Strings` guarantee a permutation of the input that
  is sorted with respect to the comparator; they are modelled with
  `List.insertionSort`, which provides exactly this contract.
-/

/-- Outcome of a Go call: a value, an error, or a runtime panic. -/
inductive GoOutcome (α : Type) where
  | ok : α → GoOutcome α
  | err : String → GoOutcome α
  | panicked : GoOutcome α
deriving DecidableEq

/-- An already-parsed subtitle cue (`astisub.Item`): start/end times in
nanoseconds and the text of its lines (each line a list of line items).
`astisub.OpenFile` is external to the repository; the model of
`ParseSubtitleFile` starts from the parsed items it produces. -/
structure SubItem where
  StartAt : Int
  EndAt : Int
  Lines : List (List String)
deriving DecidableEq

/-- `addSubtitleItem` of parse.go: concatenates the content of a subtitle
item onto a string builder (line items joined by spaces, lines joined by
spaces). -/
def addSubtitleItem (sb : String) (item : SubItem) : String :=
  sb ++ String.intercalate " " (item.Lines.map (String.intercalate " "))

/-- `transcriptionSegment` of parse.go: temporal and textual position of a
segment within an audio transcription. `EndPos` is the byte position of the
last character of the segment within the whole transcription text. -/
structure transcriptionSegment where
  StartTime : Int
  EndTime : Int
  EndPos : Nat
deriving DecidableEq

/-- `Transcription` of parse.go: the whole transcription text plus the
segment table serialised as floats (bleve stores only `float64`). -/
structure Transcription where
  Words : String
  Segments : List ℚ
deriving DecidableEq

/-- `toFloats` of parse.go: serialises a transcription segment as three
floats — `StartTime.Seconds()`, `EndTime.Seconds()`, `float64(EndPos)`. -/
def transcriptionSegment.toFloats (t : transcriptionSegment) : ℚ × ℚ × ℚ :=
  ((t.StartTime : ℚ) / 1000000000, (t.EndTime : ℚ) / 1000000000, (t.EndPos : ℚ))

/-- The cue-encoding loop of `ParseSubtitleFile` (parse.go): for each item,
a newline separator (except before the first item), the item's text, and a
segment record whose `EndPos` is the builder's byte length after appending
the item. Returns the final text and the segment records. -/
def parseItems (sb : String) (first : Bool) : List SubItem → String × List transcriptionSegment
  | [] => (sb, [])
  | item :: rest =>
    let sb1 := addSubtitleItem (if first then sb else sb ++ "\n") item
    let out := parseItems sb1 false rest
    (out.1, ⟨item.StartAt, item.EndAt, sb1.utf8ByteSize⟩ :: out.2)

/-- `ParseSubtitleFile` of parse.go, modelled from the parsed subtitle items
(the `astisub.OpenFile` call is external; its failure is the only error
return of the Go function, so the encoding itself is total). -/
def ParseSubtitleFile (items : List SubItem) : Transcription :=
  let out := parseItems "" true items
  ⟨out.1, out.2.flatMap fun t => [t.toFloats.1, t.toFloats.2.1, t.toFloats.2.2]⟩

/-- Newline-prefixed cue texts of all items after the first. -/
def joinRest : List SubItem → String
  | [] => ""
  | it :: rest => addSubtitleItem "\n" it ++ joinRest rest

/-- Closed form of the text built by `parseItems`: the cue texts joined by
newlines. -/
def transcriptText : List SubItem → String
  | [] => ""
  | item :: rest => addSubtitleItem "" item ++ joinRest rest

/-- `SegmentHit` of search.go: a transcription segment that matched a
query. `SortedTerms` holds the matched terms (sorted in increasing order
once aggregation for the document is complete). -/
structure SegmentHit where
  StartTime : Int
  EndTime : Int
  SortedTerms : List String
deriving DecidableEq

/-- The loop body of `SegmentHit.NDistinctTerms`: `result` starts at 0 and
`last` starts at the zero value `""`; each term different from `last`
bumps the count and replaces `last`. -/
def nDistinctAux : String → List String → Nat
  | _, [] => 0
  | last, term :: rest =>
    if term ≠ last then nDistinctAux term rest + 1 else nDistinctAux last rest

/-- `NDistinctTerms` of search.go: number of distinct terms in the segment
that matched the query (assuming `SortedTerms` is sorted). -/
def SegmentHit.NDistinctTerms (sh : SegmentHit) : Nat :=
  nDistinctAux "" sh.SortedTerms

/-- `SearchResult` of search.go: one transcription file that matched. -/
structure SearchResult where
  ID : String
  Score : ℚ
  Segments : List SegmentHit
deriving DecidableEq

/-- `ScoredSegment` of search.go: a `SegmentHit` with its score and its
transcription ID. -/
structure ScoredSegment extends SegmentHit where
  Score : ℚ
  ID : String
deriving DecidableEq

/-- The element construction inside `ScoredSegments`:
`score = sr.Score * float64(segment.NDistinctTerms())`. -/
def mkScored (sr : SearchResult) (segment : SegmentHit) : ScoredSegment :=
  ⟨segment, sr.Score * (segment.NDistinctTerms : ℚ), sr.ID⟩

/-- Go string order, byte-wise on UTF-8 = code-point lexicographic. -/
def goStrLe (a b : String) : Prop := a.data ≤ b.data

instance : DecidableRel goStrLe :=
  fun a b => show Decidable (a.data ≤ b.data) from inferInstance

/-- The `sort.Slice` comparator of `ScoredSegments`: score descending, then
ID ascending, then start time ascending. -/
def scoredLess (a b : ScoredSegment) : Bool :=
  if a.Score ≠ b.Score then decide (a.Score > b.Score)
  else if a.ID ≠ b.ID then decide (a.ID.data < b.ID.data)
  else decide (a.StartTime < b.StartTime)

/-- The (non-strict) order the output of `ScoredSegments` is sorted by:
`a` may precede `b` exactly when the comparator does not strictly order
`b` before `a`. -/
def scoredLE (a b : ScoredSegment) : Prop := scoredLess b a = false

instance : DecidableRel scoredLE :=
  fun a b => show Decidable (scoredLess b a = false) from inferInstance

/-- The flattening loop of `ScoredSegments`, before sorting. -/
def flattenScored (srs : List SearchResult) : List ScoredSegment :=
  srs.flatMap fun sr => sr.Segments.map (mkScored sr)

/-- `ScoredSegments` of search.go: flattens a search-result hierarchy into
scored segments, sorted by the three-key comparator. -/
def ScoredSegments (srs : List SearchResult) : List ScoredSegment :=
  (flattenScored srs).insertionSort scoredLE

/-- The predicate passed by `locateSegment` to `sort.Search`, together with
its `searchFailed` side effect: component 1 is the predicate's value,
component 2 is whether this probe set `searchFailed` (entry not a float,
or not positive). -/
def locPred (segments : List (Option ℚ)) (start : Nat) (i : Nat) : Bool × Bool :=
  match segments.get? (i * 3 + 2) with
  | some (some endPos) =>
    if 0 < endPos then (decide (⌊endPos⌋.toNat > start), false) else (false, true)
  | _ => (false, true)

/-- Go's `sort.Search` binary search (`h := (i+j)/2`), with the
`searchFailed` latch threaded through; `fuel ≥ j - i` makes the recursion
structural without changing the result. -/
def goSearchAux (f : Nat → Bool × Bool) : Nat → Nat → Nat → Bool → Nat × Bool
  | 0, i, _, flag => (i, flag)
  | fuel + 1, i, j, flag =>
    if i < j then
      let h := (i + j) / 2
      if (f h).1 then goSearchAux f fuel i h (flag || (f h).2)
      else goSearchAux f fuel (h + 1) j (flag || (f h).2)
    else (i, flag)

/-- The indices probed by `goSearchAux` (same recursion structure). -/
def goSearchProbes (f : Nat → Bool × Bool) : Nat → Nat → Nat → List Nat
  | 0, _, _ => []
  | fuel + 1, i, j =>
    if i < j then
      let h := (i + j) / 2
      h :: (if (f h).1 then goSearchProbes f fuel i h else goSearchProbes f fuel (h + 1) j)
    else []

/-- `locateSegment` of search.go: index of the segment containing the given
location, `-1` when the search failed on a malformed entry. -/
def locateSegment (segments : List (Option ℚ)) (start : Nat) : Int :=
  let n := segments.length / 3
  let r := goSearchAux (locPred segments start) n 0 n false
  if r.2 then -1 else Int.ofNat r.1

/-- The set of probe indices of the binary search run by `locateSegment`. -/
def locProbes (segments : List (Option ℚ)) (start : Nat) : List Nat :=
  let n := segments.length / 3
  goSearchProbes (locPred segments start) n 0 n

/-- A malformed end-offset entry for segment `i`: not a float, or ≤ 0
(exactly the condition that sets `searchFailed` when probed). -/
def endEntryBad (segments : List (Option ℚ)) (i : Nat) : Bool :=
  match segments.get? (i * 3 + 2) with
  | some (some endPos) => decide (endPos ≤ 0)
  | _ => true

/-- Go's conversion `int(f)` of a `float64`: truncation toward zero. -/
def goIntOfFloat (q : ℚ) : Int := if 0 ≤ q then ⌊q⌋ else ⌈q⌉

/-- The `extract` closure of `extractDurations`: `segments[i].(float64)`;
an out-of-range index is a Go runtime panic. -/
def extractFloat (segments : List (Option ℚ)) (i : Nat) : GoOutcome ℚ :=
  match segments.get? i with
  | none => .panicked
  | some none =>
    .err ("Expected segments[" ++ toString i ++ "] to be of type float64, got another type.")
  | some (some value) => .ok value

/-- `extractDurations` of search.go: start/end durations of a segment,
`time.Duration(int(f) * int(time.Second))`. -/
def extractDurations (segments : List (Option ℚ)) (segmentPos : Nat) : GoOutcome (Int × Int) :=
  match extractFloat segments (segmentPos * 3) with
  | .err e => .err e
  | .panicked => .panicked
  | .ok floatStart =>
    match extractFloat segments (segmentPos * 3 + 1) with
    | .err e => .err e
    | .panicked => .panicked
    | .ok floatEnd =>
      .ok (goIntOfFloat floatStart * 1000000000, goIntOfFloat floatEnd * 1000000000)

/-- The `hitCache` of `AssembleSearchResults`, an index-keyed map of
in-progress segment hits, as an association list. -/
abbrev Cache := List (Nat × SegmentHit)

/-- One cache update of `AssembleSearchResults`: append `term` to the
cached hit for segment `i`, or create the hit with the extracted times. -/
def addTerm : Cache → Nat → Int → Int → String → Cache
  | [], i, st, en, term => [(i, ⟨st, en, [term]⟩)]
  | (j, sh) :: rest, i, st, en, term =>
    if j = i then (j, ⟨sh.StartTime, sh.EndTime, sh.SortedTerms ++ [term]⟩) :: rest
    else (j, sh) :: addTerm rest i st en term

/-- The body of the location loop of `AssembleSearchResults` for one
(term, location) pair: locate the segment, extract its durations, update
the cache. -/
def processPair (segments : List (Option ℚ)) (cache : Cache) (term : String) (loc : Nat) :
    GoOutcome Cache :=
  let i := locateSegment segments loc
  if i < 0 then .err "Failed to locate segment."
  else
    match extractDurations segments i.toNat with
    | .err e => .err e
    | .panicked => .panicked
    | .ok (start, stop) => .ok (addTerm cache i.toNat start stop term)

/-- The location loops of `AssembleSearchResults`, over the flattened
(term, location) pairs of one hit. -/
def processPairs (segments : List (Option ℚ)) : Cache → List (String × Nat) → GoOutcome Cache
  | cache, [] => .ok cache
  | cache, (term, loc) :: rest =>
    match processPair segments cache term loc with
    | .ok cache1 => processPairs segments cache1 rest
    | .err e => .err e
    | .panicked => .panicked

/-- Flattening of a hit's `Locations` (term → offsets) into pairs, in
iteration order. -/
def pairsOf (locations : List (String × List Nat)) : List (String × Nat) :=
  locations.flatMap fun tl => tl.2.map fun loc => (tl.1, loc)

/-- The per-document `sort.Slice` comparator of `AssembleSearchResults`:
number of matched terms (length of `SortedTerms`) descending, then start
time ascending. -/
def hitLess (a b : SegmentHit) : Bool :=
  if a.SortedTerms.length ≠ b.SortedTerms.length then
    decide (a.SortedTerms.length > b.SortedTerms.length)
  else decide (a.StartTime < b.StartTime)

/-- The (non-strict) order the per-document segment list is sorted by. -/
def hitLE (a b : SegmentHit) : Prop := hitLess b a = false

instance : DecidableRel hitLE :=
  fun a b => show Decidable (hitLess b a = false) from inferInstance

/-- Freezing one cache entry: `sort.Strings` on its terms. -/
def freezeHit (e : Nat × SegmentHit) : SegmentHit :=
  ⟨e.2.StartTime, e.2.EndTime, e.2.SortedTerms.insertionSort goStrLe⟩

/-- One raw bleve hit: document ID, relevance score, the stored `Segments`
field (`none` models a missing field; entries are `none` when not a
float), and the per-term match locations. -/
structure BleveHit where
  ID : String
  Score : ℚ
  Fields : Option (List (Option ℚ))
  Locations : List (String × List Nat)
deriving DecidableEq

/-- The per-hit body of `AssembleSearchResults`. -/
def assembleHit (hit : BleveHit) : GoOutcome SearchResult :=
  match hit.Fields with
  | none => .err "Segments are missing from bleve search results."
  | some segments =>
    if segments.length % 3 ≠ 0 then
      .err "Serialized segments should be a multiple of 3."
    else
      match processPairs segments [] (pairsOf hit.Locations) with
      | .err e => .err e
      | .panicked => .panicked
      | .ok cache => .ok ⟨hit.ID, hit.Score, (cache.map freezeHit).insertionSort hitLE⟩

/-- `AssembleSearchResults` of search.go: builds transcription search
results from raw bleve hits; the first error aborts the whole query. -/
def AssembleSearchResults : List BleveHit → GoOutcome (List SearchResult)
  | [] => .ok []
  | hit :: rest =>
    match assembleHit hit with
    | .err e => .err e
    | .panicked => .panicked
    | .ok sr =>
      match AssembleSearchResults rest with
      | .err e => .err e
      | .panicked => .panicked
      | .ok srs => .ok (sr :: srs)

/-- The terms of the pairs of `P` whose location resolves to segment `j`,
in processing order. -/
def termsAt (segments : List (Option ℚ)) (P : List (String × Nat)) (j : Nat) : List String :=
  (P.filter fun p => locateSegment segments p.2 == Int.ofNat j).map Prod.fst

/-- Decoding one stored `(start_seconds, end_seconds, end_offset)` triple
back into typed data, using the exact conversions the source applies when
consuming stored entries: `extractDurations`' `time.Duration(int(f) *
int(time.Second))` for the times and `locateSegment`'s `uint64(f)` for the
offset; `none` when an entry is not a float. -/
def decode1 (a b c : Option ℚ) : Option (Int × Int × Nat) :=
  match a, b, c with
  | some fa, some fb, some fc =>
    some (goIntOfFloat fa * 1000000000, goIntOfFloat fb * 1000000000, ⌊fc⌋.toNat)
  | _, _, _ => none

/-- Decoding a stored flat segment table as consecutive triples (§6 of the
spec); `none` on a malformed entry or a length not a multiple of 3. -/
def decodeTriples : List (Option ℚ) → Option (List (Int × Int × Nat))
  | [] => some []
  | a :: b :: c :: rest =>
    match decode1 a b c, decodeTriples rest with
    | some t, some ts => some (t :: ts)
    | _, _ => none
  | _ => none

/-- The triple recorded for a segment by the encoder. -/
def tripleOf (t : transcriptionSegment) : Int × Int × Nat :=
  (t.StartTime, t.EndTime, t.EndPos)

/-! ## Concrete inputs used by witnesses and counterexamples -/

/-- The concrete boundary table used as the witness input for `claim_C1`:
two segments with end offsets 50 and 120. -/
def segsW : List (Option ℚ) := [some 0, some 5, some 50, some 5, some 10, some 120]

/-- The end offsets of `segsW` as a function. -/
def endsW : Nat → Nat := fun k => if k = 0 then 50 else 120

/-- Sort key realising the `ScoredSegments` comparator: score descending,
then ID ascending, then start time ascending, as a lexicographic order. -/
def skey (z : ScoredSegment) : Lex (ℚᵒᵈ × Lex (List Char × Int)) :=
  toLex (OrderDual.toDual z.Score, toLex (z.ID.data, z.StartTime))

/-- Sort key realising the per-document comparator of
`AssembleSearchResults`: number of matched terms descending, then start
time ascending. -/
def hkey (sh : SegmentHit) : Lex (ℕᵒᵈ × Int) :=
  toLex (OrderDual.toDual sh.SortedTerms.length, sh.StartTime)

/-- The concrete search result used as the witness input for `claim_C3`. -/
def srW : SearchResult := ⟨"d", 2, [⟨0, 1000000000, ["a"]⟩]⟩

/-- The raw bleve hit used for the C5 counterexample: segment 0 matches
one term three times, segment 1 matches two distinct terms. -/
def hit5 : BleveHit :=
  ⟨"doc5", 2, some [some 0, some 5, some 50, some 5, some 10, some 120],
   [("x", [10, 20, 30]), ("a", [60]), ("b", [70])]⟩

/-- The search result `AssembleSearchResults` produces for `hit5`. -/
def res5 : SearchResult :=
  ⟨"doc5", 2, [⟨0, 5000000000, ["x", "x", "x"]⟩, ⟨5000000000, 10000000000, ["a", "b"]⟩]⟩

/-- The ordering claimed by the specification for the per-document segment
sequence, modelled from the spec's words: primarily by descending
`distinct_term_count`, secondarily by ascending `start_time`. -/
def specAggLE (a b : SegmentHit) : Prop :=
  a.NDistinctTerms > b.NDistinctTerms
  ∨ (a.NDistinctTerms = b.NDistinctTerms ∧ a.StartTime ≤ b.StartTime)

instance : DecidableRel specAggLE := fun a b => by
  unfold specAggLE
  exact inferInstance

/-- The raw bleve hit exhibiting the C6 failure: a well-formed one-segment
table with end offset 50, and a location at offset 50 (equal to the last
end offset, i.e. beyond the transcript). -/
def hit6 : BleveHit := ⟨"doc6", 2, some [some 0, some 5, some 50], [("rome", [50])]⟩

/-- The raw bleve hit for the C7 counterexample: the end-offset entry of
segment 2 (position 8) is not a number, yet the location at offset 30
resolves successfully because the binary search never probes it. -/
def hit7 : BleveHit :=
  ⟨"doc7", 2, some [some 0, some 5, some 50, some 5, some 10, some 120, some 10, some 15, none],
   [("rome", [30])]⟩

/-- Scenario input: two distinct terms resolving to the same segment. -/
def hitA : BleveHit := ⟨"docA", 2, some [some 0, some 5, some 50], [("a", [10]), ("b", [20])]⟩

/-- Scenario input: the same term resolving twice to one segment. -/
def hitB : BleveHit := ⟨"docB", 2, some [some 0, some 5, some 50], [("a", [10, 20])]⟩

/-! ## Binary search lemmas -/

/-- When every in-range probe answers `decide (t ≤ k)` with no failure,
Go's binary search returns `t` and leaves the failure latch unchanged. -/
lemma goSearchAux_eq_const (f : Nat → Bool × Bool) (t n : Nat)
    (hf : ∀ k, k < n → f k = (decide (t ≤ k), false)) :
    ∀ fuel i j flag, j - i ≤ fuel → i ≤ t → t ≤ j → j ≤ n →
      goSearchAux f fuel i j flag = (t, flag) := by
  intro fuel
  induction fuel with
  | zero =>
    intro i j flag h1 h2 h3 h4
    have : i = t := by omega
    subst this
    simp [goSearchAux]
  | succ fuel ih =>
    intro i j flag h1 h2 h3 h4
    by_cases hij : i < j
    · have hh : (i + j) / 2 < n := by omega
      have hfh := hf _ hh
      by_cases hth : t ≤ (i + j) / 2
      · rw [goSearchAux]
        simp only [if_pos hij, hfh, decide_eq_true_eq, if_pos hth, Bool.or_false]
        exact ih i ((i + j) / 2) flag (by omega) h2 hth (by omega)
      · rw [goSearchAux]
        simp only [if_pos hij, hfh, decide_eq_true_eq, if_neg hth, Bool.or_false]
        exact ih ((i + j) / 2 + 1) j flag (by omega) (by omega) h3 h4
    · rw [goSearchAux, if_neg hij]
      have : i = t := by omega
      subst this
      rfl

/-- The failure latch collected by the binary search is exactly the
disjunction of the failure bits of the probed indices. -/
lemma goSearchAux_snd (f : Nat → Bool × Bool) :
    ∀ fuel i j flag,
      (goSearchAux f fuel i j flag).2
        = (flag || (goSearchProbes f fuel i j).any fun k => (f k).2) := by
  intro fuel
  induction fuel with
  | zero => intro i j flag; simp [goSearchAux, goSearchProbes]
  | succ fuel ih =>
    intro i j flag
    by_cases hij : i < j
    · rw [goSearchAux, goSearchProbes]
      by_cases hp : (f ((i + j) / 2)).1 = true
      · simp [hij, hp, ih, List.any_cons, Bool.or_assoc]
      · simp [hij, hp, ih, List.any_cons, Bool.or_assoc]
    · rw [goSearchAux, goSearchProbes, if_neg hij, if_neg hij]
      simp

/-- Nondecreasing consequence of a strictly increasing boundary table. -/
lemma ends_mono_of_strict (n : Nat) (ends : Nat → Nat)
    (hmono : ∀ j k, j < k → k < n → ends j < ends k) :
    ∀ a b, a ≤ b → b < n → ends a ≤ ends b := by
  intro a b hab hbn
  rcases Nat.lt_or_ge a b with h | h
  · exact le_of_lt (hmono a b h hbn)
  · have : a = b := by omega
    subst this
    exact le_rfl

/-- C1: for a segment boundary table whose end offsets are strictly
increasing positive numbers (character offsets, hence integral) and a
non-negative in-range offset, `locateSegment` returns the smallest index
`i` such that `segments[i].end_offset > offset`; in particular an offset
exactly equal to the end offset of segment `i` resolves to segment
`i + 1`. -/
theorem claim_C1 (segments : List (Option ℚ)) (start : Nat) (ends : Nat → Nat)
    (hn : 0 < segments.length / 3)
    (hentry : ∀ k, k < segments.length / 3 →
      segments.get? (k * 3 + 2) = some (some ((ends k : ℚ))))
    (hpos : ∀ k, k < segments.length / 3 → 0 < ends k)
    (hmono : ∀ j k, j < k → k < segments.length / 3 → ends j < ends k)
    (hin : start < ends (segments.length / 3 - 1)) :
    0 ≤ locateSegment segments start
    ∧ (locateSegment segments start).toNat < segments.length / 3
    ∧ start < ends (locateSegment segments start).toNat
    ∧ (∀ j, j < (locateSegment segments start).toNat → ends j ≤ start)
    ∧ (∀ i, i + 1 < segments.length / 3 → start = ends i →
        locateSegment segments start = Int.ofNat (i + 1)) := by
  set n := segments.length / 3 with hdefn
  have hex : ∃ k, start < ends k := ⟨n - 1, hin⟩
  set t := Nat.find hex with hdeft
  have ht : start < ends t := Nat.find_spec hex
  have htmin : ∀ m, m < t → ¬ start < ends m := fun m hm => Nat.find_min hex hm
  have hmono' := ends_mono_of_strict n ends hmono
  have htn : t < n := by
    have : t ≤ n - 1 := Nat.find_le hin
    omega
  have hpred : ∀ k, k < n → locPred segments start k = (decide (t ≤ k), false) := by
    intro k hk
    have h0 : (0 : ℚ) < (ends k : ℚ) := by exact_mod_cast hpos k hk
    have hfl : (⌊((ends k : ℕ) : ℚ)⌋ : Int) = ((ends k : ℕ) : Int) := Int.floor_natCast _
    unfold locPred
    rw [hentry k hk]
    simp only [if_pos h0, hfl, Int.toNat_natCast]
    have hiff : decide (ends k > start) = decide (t ≤ k) := by
      apply decide_eq_decide.mpr
      constructor
      · intro hgt
        by_contra hlt
        push_neg at hlt
        exact htmin k hlt hgt
      · intro htk
        exact lt_of_lt_of_le ht (hmono' t k htk hk)
    rw [hiff]
  have hsearch := goSearchAux_eq_const (locPred segments start) t n hpred n 0 n false
    (by omega) (Nat.zero_le t) (le_of_lt htn) le_rfl
  have hloc : locateSegment segments start = Int.ofNat t := by
    simp only [locateSegment]
    rw [← hdefn, hsearch]
    rfl
  have htoNat : (locateSegment segments start).toNat = t := by
    rw [hloc]; rfl
  refine ⟨?_, ?_, ?_, ?_, ?_⟩
  · rw [hloc]; exact Int.ofNat_nonneg t
  · rw [htoNat]; exact htn
  · rw [htoNat]; exact ht
  · rw [htoNat]
    intro j hj
    exact le_of_not_lt (htmin j hj)
  · intro i hi hstart
    rw [hloc]
    have hub : t ≤ i + 1 := by
      apply Nat.find_le
      rw [hstart]
      exact hmono i (i + 1) (by omega) hi
    have hlb : i + 1 ≤ t := by
      by_contra hc
      push_neg at hc
      have hti : t ≤ i := by omega
      have : ends t ≤ ends i := hmono' t i hti (by omega)
      rw [← hstart] at this
      omega
    have : t = i + 1 := by omega
    rw [this]

theorem claim_C1_witness : locateSegment segsW 50 = Int.ofNat 1 :=
  (claim_C1 segsW 50 endsW (by decide) (by decide) (by decide)
    (by
      intro j k hjk hk
      have h6 : segsW.length = 6 := rfl
      rw [h6] at hk
      have hk1 : k = 1 := by omega
      have hj0 : j = 0 := by omega
      subst hk1; subst hj0; decide)
    (by decide)).2.2.2.2 0 (by decide) (by decide)

/-! ## The ranking comparators are total preorders -/

lemma scoredLess_eq_decide (a b : ScoredSegment) :
    scoredLess a b = decide (skey a < skey b) := by
  unfold scoredLess skey
  apply Eq.symm
  by_cases hs : a.Score = b.Score
  · by_cases hid : a.ID = b.ID
    · simp only [hs, hid, ne_eq, not_true_eq_false, if_false]
      apply decide_eq_decide.mpr
      simp [Prod.Lex.lt_iff, hs, hid]
    · simp only [hs, ne_eq, not_true_eq_false, if_false, hid, not_false_eq_true, if_true]
      apply decide_eq_decide.mpr
      have hdata : a.ID.data ≠ b.ID.data := fun hd => hid (String.ext hd)
      simp [Prod.Lex.lt_iff, hs, hdata]
  · simp only [ne_eq, hs, not_false_eq_true, if_true]
    apply decide_eq_decide.mpr
    have : ¬ OrderDual.toDual a.Score = OrderDual.toDual b.Score := by simpa using hs
    simp [Prod.Lex.lt_iff, this]

lemma scoredLE_iff (a b : ScoredSegment) : scoredLE a b ↔ skey a ≤ skey b := by
  unfold scoredLE
  rw [scoredLess_eq_decide, decide_eq_false_iff_not, not_lt]

instance : IsTotal ScoredSegment scoredLE :=
  ⟨fun a b => by rw [scoredLE_iff, scoredLE_iff]; exact le_total _ _⟩

instance : IsTrans ScoredSegment scoredLE :=
  ⟨fun a b c hab hbc => by
    rw [scoredLE_iff] at *
    exact le_trans hab hbc⟩

lemma hitLess_eq_decide (a b : SegmentHit) :
    hitLess a b = decide (hkey a < hkey b) := by
  unfold hitLess hkey
  apply Eq.symm
  by_cases hl : a.SortedTerms.length = b.SortedTerms.length
  · simp only [hl, ne_eq, not_true_eq_false, if_false]
    apply decide_eq_decide.mpr
    simp [Prod.Lex.lt_iff, hl]
  · simp only [ne_eq, hl, not_false_eq_true, if_true]
    apply decide_eq_decide.mpr
    have : ¬ OrderDual.toDual a.SortedTerms.length = OrderDual.toDual b.SortedTerms.length := by
      simpa using hl
    simp [Prod.Lex.lt_iff, this]

lemma hitLE_iff (a b : SegmentHit) : hitLE a b ↔ hkey a ≤ hkey b := by
  unfold hitLE
  rw [hitLess_eq_decide, decide_eq_false_iff_not, not_lt]

instance : IsTotal SegmentHit hitLE :=
  ⟨fun a b => by rw [hitLE_iff, hitLE_iff]; exact le_total _ _⟩

instance : IsTrans SegmentHit hitLE :=
  ⟨fun a b c hab hbc => by
    rw [hitLE_iff] at *
    exact le_trans hab hbc⟩

/-- C2: `ScoredSegments` returns exactly the flattened scored segments
(a permutation of them), sorted by the total deterministic order
"score descending, then document ID ascending, then start time
ascending" (`scoredLE`, which is total). -/
theorem claim_C2 (srs : List SearchResult) :
    (ScoredSegments srs).Perm (flattenScored srs)
    ∧ (ScoredSegments srs).Sorted scoredLE
    ∧ (∀ a b : ScoredSegment, scoredLE a b ∨ scoredLE b a) :=
  ⟨List.perm_insertionSort scoredLE (flattenScored srs),
   List.sorted_insertionSort scoredLE (flattenScored srs),
   fun a b => IsTotal.total a b⟩

/-- C3: every segment in the output of `ScoredSegments` is a segment of
one of the input results, scored with the document's relevance score
multiplied by the segment's number of distinct matched terms. -/
theorem claim_C3 (srs : List SearchResult) (z : ScoredSegment)
    (hz : z ∈ ScoredSegments srs) :
    ∃ sr ∈ srs, ∃ seg ∈ sr.Segments,
      z = mkScored sr seg ∧ z.Score = sr.Score * (seg.NDistinctTerms : ℚ) := by
  have hmem : z ∈ flattenScored srs :=
    ((List.perm_insertionSort scoredLE (flattenScored srs)).mem_iff).mp hz
  rw [flattenScored, List.mem_flatMap] at hmem
  obtain ⟨sr, hsr, hmem2⟩ := hmem
  rw [List.mem_map] at hmem2
  obtain ⟨seg, hseg, heq⟩ := hmem2
  refine ⟨sr, hsr, seg, hseg, heq.symm, ?_⟩
  rw [← heq]
  rfl

theorem claim_C3_witness :
    ∃ sr ∈ [srW], ∃ seg ∈ sr.Segments,
      mkScored srW ⟨0, 1000000000, ["a"]⟩ = mkScored sr seg
      ∧ (mkScored srW ⟨0, 1000000000, ["a"]⟩).Score = sr.Score * (seg.NDistinctTerms : ℚ) :=
  claim_C3 [srW] (mkScored srW ⟨0, 1000000000, ["a"]⟩) (by
    have h : ScoredSegments [srW] = [mkScored srW ⟨0, 1000000000, ["a"]⟩] := rfl
    rw [h]
    exact List.mem_singleton_self _)

/-! ## Inversion of the aggregation pipeline -/

/-- A successful `assembleHit` computes its segment list as the frozen
cache of the location loops, sorted by the per-document comparator. -/
lemma assembleHit_ok_segments (hit : BleveHit) (sr : SearchResult)
    (h : assembleHit hit = .ok sr) :
    ∃ segments cache, hit.Fields = some segments
      ∧ processPairs segments [] (pairsOf hit.Locations) = .ok cache
      ∧ sr.Segments = (cache.map freezeHit).insertionSort hitLE := by
  unfold assembleHit at h
  rcases hf : hit.Fields with _ | segments <;> rw [hf] at h <;> dsimp only at h
  · exact GoOutcome.noConfusion h
  · by_cases hm : segments.length % 3 ≠ 0
    · rw [if_pos hm] at h
      exact GoOutcome.noConfusion h
    · rw [if_neg hm] at h
      rcases hp : processPairs segments [] (pairsOf hit.Locations) with cache | e | _ <;>
        rw [hp] at h
      · injection h with h1
        exact ⟨segments, cache, rfl, hp, by rw [← h1]⟩
      · exact GoOutcome.noConfusion h
      · exact GoOutcome.noConfusion h

/-- Every result of a successful `AssembleSearchResults` comes from a
successful `assembleHit` on one of the raw hits. -/
lemma assembleSearchResults_mem (hits : List BleveHit) (res : List SearchResult)
    (h : AssembleSearchResults hits = .ok res) :
    ∀ sr ∈ res, ∃ hit ∈ hits, assembleHit hit = .ok sr := by
  induction hits generalizing res with
  | nil =>
    unfold AssembleSearchResults at h
    injection h with h1
    subst h1
    intro sr hsr
    exact absurd hsr (List.not_mem_nil sr)
  | cons hit rest ih =>
    unfold AssembleSearchResults at h
    rcases ha : assembleHit hit with sr0 | e | _ <;> rw [ha] at h
    · rcases hr : AssembleSearchResults rest with srs | e | _ <;> rw [hr] at h
      · injection h with h1
        subst h1
        intro sr hsr
        rcases List.mem_cons.mp hsr with rfl | hmem
        · exact ⟨hit, List.mem_cons_self hit rest, ha⟩
        · obtain ⟨hit', hh', he'⟩ := ih srs hr sr hmem
          exact ⟨hit', List.mem_cons_of_mem hit hh', he'⟩
      · exact GoOutcome.noConfusion h
      · exact GoOutcome.noConfusion h
    · exact GoOutcome.noConfusion h
    · exact GoOutcome.noConfusion h

/-- C5 (amended): the per-document segment list emitted by
`AssembleSearchResults` is ordered primarily by descending number of
matched term occurrences (the length of `SortedTerms`), secondarily by
ascending start time (`hitLE`). -/
theorem claim_C5_amended (hits : List BleveHit) (res : List SearchResult)
    (h : AssembleSearchResults hits = .ok res) :
    ∀ sr ∈ res, sr.Segments.Sorted hitLE := by
  intro sr hsr
  obtain ⟨hit, _, hok⟩ := assembleSearchResults_mem hits res h sr hsr
  obtain ⟨segments, cache, _, _, hseg⟩ := assembleHit_ok_segments hit sr hok
  rw [hseg]
  exact List.sorted_insertionSort hitLE _

theorem claim_C5_amended_witness : res5.Segments.Sorted hitLE :=
  claim_C5_amended [hit5] [res5] (by decide) res5 (by decide)

/-- C5 fails as stated: on `hit5` the emitted segment sequence has
distinct term counts `[1, 2]` — not descending — because the code orders
by total term occurrences (`len(SortedTerms)`), not by distinct count. -/
theorem claim_C5_counterexample :
    AssembleSearchResults [hit5] = GoOutcome.ok [res5]
    ∧ (res5.Segments.map SegmentHit.NDistinctTerms) = [1, 2]
    ∧ ¬ res5.Segments.Sorted specAggLE := by
  refine ⟨by decide, by decide, ?_⟩
  intro hs
  have h1 := (List.sorted_cons.mp (show List.Sorted specAggLE
      ((⟨0, 5000000000, ["x", "x", "x"]⟩ : SegmentHit)
        :: [⟨5000000000, 10000000000, ["a", "b"]⟩]) from hs)).1
    ⟨5000000000, 10000000000, ["a", "b"]⟩ (by decide)
  exact absurd h1 (by decide)

/-! ## Out-of-range offsets and malformed boundary entries -/

/-- C6 fails on the code: for an offset beyond the last end offset,
`locateSegment` returns the number of segments (not an error), and
`AssembleSearchResults` then reads `segments[3*n]` out of range — a Go
runtime panic, not an error result. -/
theorem claim_C6_bug :
    locateSegment [some 0, some 5, some 50] 50 = Int.ofNat 1
    ∧ extractDurations [some 0, some 5, some 50] 1 = GoOutcome.panicked
    ∧ AssembleSearchResults [hit6] = GoOutcome.panicked := by
  decide

/-- The failure bit of a probe of `locateSegment`'s predicate is exactly
`endEntryBad`, independently of the offset being located. -/
lemma locPred_snd (segments : List (Option ℚ)) (start i : Nat) :
    (locPred segments start i).2 = endEntryBad segments i := by
  unfold locPred endEntryBad
  rcases h : segments.get? (i * 3 + 2) with _ | v
  · rfl
  · rcases v with _ | q
    · rfl
    · dsimp only
      by_cases h0 : 0 < q
      · rw [if_pos h0]
        exact ((decide_eq_false_iff_not).mpr (not_le.mpr h0)).symm
      · rw [if_neg h0]
        exact (decide_eq_true (not_lt.mp h0)).symm

/-- C7 (amended): a malformed boundary entry makes `locateSegment` fail
exactly when the binary search probes that entry; malformed entries at
positions the probe path never visits are silently ignored. -/
theorem claim_C7_amended (segments : List (Option ℚ)) (start : Nat) :
    locateSegment segments start = -1
      ↔ ∃ k ∈ locProbes segments start, endEntryBad segments k = true := by
  have hfun : (fun k => (locPred segments start k).2) = endEntryBad segments :=
    funext (locPred_snd segments start)
  have hsnd := goSearchAux_snd (locPred segments start) (segments.length / 3) 0
    (segments.length / 3) false
  rw [Bool.false_or, hfun] at hsnd
  simp only [locateSegment, locProbes]
  rw [hsnd]
  rcases hb : (goSearchProbes (locPred segments start) (segments.length / 3) 0
      (segments.length / 3)).any (endEntryBad segments) with _ | _
  · rw [if_neg (by simp)]
    constructor
    · intro habs
      rw [Int.ofNat_eq_natCast] at habs
      omega
    · rintro ⟨k, hk, hbad⟩
      have hall := List.any_eq_false.mp hb
      exact absurd hbad (hall k hk)
  · rw [if_pos rfl]
    constructor
    · intro _
      exact List.any_eq_true.mp hb
    · intro _
      rfl

/-- C7 fails as stated: a table with a malformed boundary entry for which
resolution and aggregation nevertheless succeed. -/
theorem claim_C7_counterexample :
    [some 0, some 5, some 50, some 5, some 10, some 120,
      some 10, some 15, (none : Option ℚ)].get? 8 = some none
    ∧ AssembleSearchResults [hit7]
        = GoOutcome.ok [⟨"doc7", 2, [⟨0, 5000000000, ["rome"]⟩]⟩] := by
  decide

/-! ## Distinct term counting -/

lemma goStrLe_antisymm {a b : String} (h1 : goStrLe a b) (h2 : goStrLe b a) : a = b :=
  String.ext (le_antisymm h1 h2)

lemma goStrLe_refl (a : String) : goStrLe a a := le_refl a.data

instance : IsTotal String goStrLe := ⟨fun a b => le_total a.data b.data⟩

instance : IsTrans String goStrLe := ⟨fun _ _ _ h1 h2 => le_trans h1 h2⟩

/-- In a sorted list all values ≥ `t`, if `t` occurs then it is the head. -/
lemma sorted_head_eq (t : String) (ts : List String)
    (hts : ∀ x ∈ ts, goStrLe t x) (hsts : ts.Sorted goStrLe) (hmem : t ∈ ts) :
    ts.head? = some t := by
  cases ts with
  | nil => cases hmem
  | cons u us =>
    have h1 : goStrLe t u := hts u (List.mem_cons_self u us)
    have h2 : goStrLe u t := by
      rcases List.mem_cons.mp hmem with rfl | hm
      · exact goStrLe_refl _
      · exact ((List.sorted_cons.mp hsts).1 t hm)
    rw [goStrLe_antisymm h1 h2]
    rfl

/-- The counting loop of `NDistinctTerms` on a sorted list counts the
distinct values, except that a leading run equal to the initial `last`
value is not counted. -/
lemma nDistinctAux_sorted (l : List String) (last : String)
    (hs : l.Sorted goStrLe) (hl : ∀ x ∈ l, goStrLe last x) :
    nDistinctAux last l = l.dedup.length - (if l.head? = some last then 1 else 0) := by
  induction l generalizing last with
  | nil => simp [nDistinctAux]
  | cons t ts ih =>
    obtain ⟨hts, hsts⟩ := List.sorted_cons.mp hs
    by_cases htl : t = last
    · subst htl
      rw [nDistinctAux, if_neg (by simp)]
      have hhd : (t :: ts).head? = some t := rfl
      rw [hhd, if_pos rfl]
      by_cases hmem : t ∈ ts
      · have hhead : ts.head? = some t := sorted_head_eq t ts hts hsts hmem
        rw [List.dedup_cons_of_mem hmem, ih t hsts hts, hhead, if_pos rfl]
      · rw [List.dedup_cons_of_not_mem hmem, ih t hsts hts]
        have hne : ts.head? ≠ some t := by
          intro hc
          exact hmem (List.mem_of_mem_head? hc)
        rw [if_neg hne]
        simp
    · rw [nDistinctAux, if_pos (by simpa using htl)]
      have hne : (t :: ts).head? ≠ some last := by
        intro hc
        injection hc with hc'
        exact htl hc'
      rw [if_neg hne]
      have ihs := ih t hsts hts
      by_cases hmem : t ∈ ts
      · have hhead : ts.head? = some t := sorted_head_eq t ts hts hsts hmem
        rw [hhead, if_pos rfl] at ihs
        have hpos : 0 < ts.dedup.length := by
          have : t ∈ ts.dedup := List.mem_dedup.mpr hmem
          exact List.length_pos.mpr (List.ne_nil_of_mem this)
        rw [List.dedup_cons_of_mem hmem, ihs]
        omega
      · have hne2 : ts.head? ≠ some t := fun hc => hmem (List.mem_of_mem_head? hc)
        rw [if_neg hne2] at ihs
        rw [List.dedup_cons_of_not_mem hmem, ihs]
        simp

/-- On a sorted list without the empty string, the loop counts exactly the
distinct values. -/
lemma nDistinct_sorted_notMem (l : List String)
    (hs : l.Sorted goStrLe) (h : "" ∉ l) :
    nDistinctAux "" l = l.dedup.length := by
  rw [nDistinctAux_sorted l "" hs (fun x _ => List.nil_le)]
  have hne : l.head? ≠ some "" := fun hc => h (List.mem_of_mem_head? hc)
  rw [if_neg hne]
  simp

/-- On a sorted list starting with the empty string, the loop counts one
less than the distinct values. -/
lemma nDistinct_sorted_headEmpty (l : List String)
    (hs : l.Sorted goStrLe) (hh : l.head? = some "") :
    nDistinctAux "" l = l.dedup.length - 1 := by
  rw [nDistinctAux_sorted l "" hs (fun x _ => List.nil_le), if_pos hh]

/-- Freezing a cache entry (sorting its accumulated terms) yields a hit
whose `NDistinctTerms` is the number of distinct accumulated terms,
provided none of them is the empty string. -/
lemma freezeHit_nDistinct (e : Nat × SegmentHit) (h : "" ∉ e.2.SortedTerms) :
    (freezeHit e).NDistinctTerms = e.2.SortedTerms.dedup.length := by
  unfold freezeHit SegmentHit.NDistinctTerms
  have hperm := List.perm_insertionSort goStrLe e.2.SortedTerms
  have hmem : "" ∉ e.2.SortedTerms.insertionSort goStrLe := fun hc => h (hperm.subset hc)
  rw [nDistinct_sorted_notMem _ (List.sorted_insertionSort goStrLe _) hmem]
  exact (List.Perm.dedup hperm).length_eq

/-- C10: on a sorted `SortedTerms` list without the empty string,
`NDistinctTerms` is exactly the number of distinct values; because `last`
is initialised to `""`, a sorted list beginning with the empty string
counts one less, and the segment's score in `ScoredSegments`
correspondingly excludes that term. -/
theorem claim_C10 :
    (∀ sh : SegmentHit, sh.SortedTerms.Sorted goStrLe → "" ∉ sh.SortedTerms →
        sh.NDistinctTerms = sh.SortedTerms.dedup.length)
    ∧ (∀ sh : SegmentHit, sh.SortedTerms.Sorted goStrLe → sh.SortedTerms.head? = some "" →
        sh.NDistinctTerms = sh.SortedTerms.dedup.length - 1)
    ∧ (∀ (sr : SearchResult) (sh : SegmentHit), sh.SortedTerms.Sorted goStrLe →
        sh.SortedTerms.head? = some "" →
        (mkScored sr sh).Score = sr.Score * ((sh.SortedTerms.dedup.length - 1 : ℕ) : ℚ)) := by
  refine ⟨?_, ?_, ?_⟩
  · intro sh hs h
    exact nDistinct_sorted_notMem sh.SortedTerms hs h
  · intro sh hs hh
    exact nDistinct_sorted_headEmpty sh.SortedTerms hs hh
  · intro sr sh hs hh
    show sr.Score * (sh.NDistinctTerms : ℚ) = _
    rw [SegmentHit.NDistinctTerms, nDistinct_sorted_headEmpty sh.SortedTerms hs hh]

theorem claim_C10_witness :
    (⟨0, 0, ["a", "b"]⟩ : SegmentHit).NDistinctTerms = (["a", "b"].dedup).length
    ∧ (⟨0, 0, ["", "a"]⟩ : SegmentHit).NDistinctTerms = (["", "a"].dedup).length - 1 :=
  ⟨claim_C10.1 ⟨0, 0, ["a", "b"]⟩ (by decide) (by decide),
   claim_C10.2.1 ⟨0, 0, ["", "a"]⟩ (by decide) (by decide)⟩

/-! ## Cache characterisation for the hit aggregator -/

lemma addTerm_lookup_eq (cache : Cache) (i : Nat) (st en : Int) (term : String) :
    (addTerm cache i st en term).lookup i
      = some (match cache.lookup i with
          | some sh => ⟨sh.StartTime, sh.EndTime, sh.SortedTerms ++ [term]⟩
          | none => ⟨st, en, [term]⟩) := by
  induction cache with
  | nil => simp [addTerm, List.lookup]
  | cons e rest ih =>
    obtain ⟨j, sh⟩ := e
    by_cases hj : j = i
    · subst hj
      simp [addTerm, List.lookup]
    · rw [addTerm, if_neg hj]
      have hcons : (i == j) = false := beq_eq_false_iff_ne.mpr (Ne.symm hj)
      rw [List.lookup_cons, List.lookup_cons, hcons]
      exact ih

lemma addTerm_lookup_ne (cache : Cache) (i j : Nat) (st en : Int) (term : String)
    (hne : j ≠ i) :
    (addTerm cache i st en term).lookup j = cache.lookup j := by
  induction cache with
  | nil =>
    simp [addTerm, List.lookup, beq_eq_false_iff_ne.mpr hne]
  | cons e rest ih =>
    obtain ⟨k, sh⟩ := e
    by_cases hk : k = i
    · subst hk
      rw [addTerm, if_pos rfl, List.lookup_cons, List.lookup_cons,
        beq_eq_false_iff_ne.mpr hne]
    · rw [addTerm, if_neg hk, List.lookup_cons, List.lookup_cons]
      rcases h : (j == k) with _ | _
      · exact ih
      · rfl

lemma addTerm_keys (cache : Cache) (i : Nat) (st en : Int) (term : String) :
    (addTerm cache i st en term).map Prod.fst
      = if i ∈ cache.map Prod.fst then cache.map Prod.fst
        else cache.map Prod.fst ++ [i] := by
  induction cache with
  | nil => simp [addTerm]
  | cons e rest ih =>
    obtain ⟨j, sh⟩ := e
    by_cases hj : j = i
    · subst hj
      simp [addTerm]
    · rw [addTerm, if_neg hj]
      by_cases hmem : i ∈ rest.map Prod.fst
      · simp only [List.map_cons, ih, if_pos hmem]
        rw [if_pos (List.mem_cons_of_mem j hmem)]
      · simp only [List.map_cons, ih, if_neg hmem]
        have : i ∉ (j :: rest.map Prod.fst) := by
          intro hc
          rcases List.mem_cons.mp hc with h1 | h2
          · exact hj h1.symm
          · exact hmem h2
        rw [if_neg this]
        simp

lemma addTerm_nodup (cache : Cache) (i : Nat) (st en : Int) (term : String)
    (h : (cache.map Prod.fst).Nodup) :
    ((addTerm cache i st en term).map Prod.fst).Nodup := by
  rw [addTerm_keys]
  by_cases hmem : i ∈ cache.map Prod.fst
  · rw [if_pos hmem]; exact h
  · rw [if_neg hmem]
    rw [List.nodup_append]
    refine ⟨h, List.nodup_singleton i, ?_⟩
    intro a ha hai
    rw [List.mem_singleton] at hai
    subst hai
    exact hmem ha

lemma lookup_eq_none_iff (c : Cache) (j : Nat) :
    c.lookup j = none ↔ j ∉ c.map Prod.fst := by
  induction c with
  | nil => simp [List.lookup]
  | cons e rest ih =>
    obtain ⟨k, sh⟩ := e
    rw [List.lookup_cons]
    by_cases hk : j = k
    · subst hk
      simp
    · rw [beq_eq_false_iff_ne.mpr hk]
      simp [ih, hk]

lemma lookup_of_mem_nodup (c : Cache) (j : Nat) (sh : SegmentHit)
    (hnd : (c.map Prod.fst).Nodup) (hm : (j, sh) ∈ c) : c.lookup j = some sh := by
  induction c with
  | nil => cases hm
  | cons e rest ih =>
    obtain ⟨k, sh'⟩ := e
    rw [List.map_cons, List.nodup_cons] at hnd
    rcases List.mem_cons.mp hm with h1 | h2
    · injection h1 with hj hsh
      subst hj
      subst hsh
      rw [List.lookup_cons, beq_self_eq_true]
    · have hjk : j ≠ k := by
        intro hc
        subst hc
        exact hnd.1 (List.mem_map.mpr ⟨(j, sh), h2, rfl⟩)
      rw [List.lookup_cons, beq_eq_false_iff_ne.mpr hjk]
      exact ih hnd.2 h2

/-- Successful location loops preserve distinctness of the cached segment
indices. -/
lemma processPairs_nodup (segments : List (Option ℚ)) :
    ∀ (P : List (String × Nat)) (c c' : Cache),
      processPairs segments c P = .ok c' →
      (c.map Prod.fst).Nodup → (c'.map Prod.fst).Nodup := by
  intro P
  induction P with
  | nil =>
    intro c c' h hnd
    unfold processPairs at h
    injection h with h1
    subst h1
    exact hnd
  | cons p rest ih =>
    intro c c' h hnd
    obtain ⟨term, loc⟩ := p
    unfold processPairs at h
    rcases hpp : processPair segments c term loc with c1 | e | _ <;> rw [hpp] at h <;>
      dsimp only at h
    · unfold processPair at hpp
      by_cases hneg : locateSegment segments loc < 0
      · rw [if_pos hneg] at hpp
        exact GoOutcome.noConfusion hpp
      · rw [if_neg hneg] at hpp
        rcases hex : extractDurations segments (locateSegment segments loc).toNat
            with ⟨st, en⟩ | e | _ <;> rw [hex] at hpp <;> dsimp only at hpp
        · injection hpp with hc1
          subst hc1
          exact ih _ _ h (addTerm_nodup _ _ _ _ _ hnd)
        · exact GoOutcome.noConfusion hpp
        · exact GoOutcome.noConfusion hpp
    · exact GoOutcome.noConfusion h
    · exact GoOutcome.noConfusion h

/-- Characterisation of the cache after a successful run of the location
loops: the entry for segment `j` accumulates exactly the terms of the
pairs whose location resolves to `j` (in processing order), with the
durations extracted for segment `j` recorded at its creation. -/
lemma processPairs_lookup (segments : List (Option ℚ)) :
    ∀ (P : List (String × Nat)) (c c' : Cache),
      processPairs segments c P = .ok c' → ∀ j : Nat,
        (∀ sh, c.lookup j = some sh →
            c'.lookup j
              = some ⟨sh.StartTime, sh.EndTime, sh.SortedTerms ++ termsAt segments P j⟩)
        ∧ (c.lookup j = none → termsAt segments P j = [] → c'.lookup j = none)
        ∧ (c.lookup j = none → termsAt segments P j ≠ [] →
            ∃ st en, extractDurations segments j = .ok (st, en)
              ∧ c'.lookup j = some ⟨st, en, termsAt segments P j⟩) := by
  intro P
  induction P with
  | nil =>
    intro c c' h j
    unfold processPairs at h
    injection h with h1
    subst h1
    refine ⟨?_, ?_, ?_⟩
    · intro sh hsh
      rw [hsh]
      simp [termsAt]
    · intro hnone _
      exact hnone
    · intro _ hne
      exact absurd (by simp [termsAt]) hne
  | cons p rest ih =>
    intro c c' h j
    obtain ⟨term, loc⟩ := p
    unfold processPairs at h
    rcases hpp : processPair segments c term loc with c1 | e | _ <;> rw [hpp] at h <;>
      dsimp only at h
    · unfold processPair at hpp
      by_cases hneg : locateSegment segments loc < 0
      · rw [if_pos hneg] at hpp
        exact GoOutcome.noConfusion hpp
      · rw [if_neg hneg] at hpp
        rcases hex : extractDurations segments (locateSegment segments loc).toNat
            with ⟨st, en⟩ | e | _ <;> rw [hex] at hpp <;> dsimp only at hpp
        · injection hpp with hc1
          subst hc1
          have hnn : (0 : Int) ≤ locateSegment segments loc := not_lt.mp hneg
          have hofnat : Int.ofNat (locateSegment segments loc).toNat
              = locateSegment segments loc := by
            rw [Int.ofNat_eq_natCast]
            exact Int.toNat_of_nonneg hnn
          by_cases hij : (locateSegment segments loc).toNat = j
          · rw [hij] at h hex
            have hres : locateSegment segments loc = Int.ofNat j := by
              rw [← hij, hofnat]
            have hterms : termsAt segments ((term, loc) :: rest) j
                = term :: termsAt segments rest j := by
              unfold termsAt
              rw [List.filter_cons]
              rw [if_pos (by simp [hres])]
              rfl
            obtain ⟨ih1, ih2, ih3⟩ := ih _ _ h j
            refine ⟨?_, ?_, ?_⟩
            · intro sh hsh
              have hadd : (addTerm c j st en term).lookup j
                  = some ⟨sh.StartTime, sh.EndTime, sh.SortedTerms ++ [term]⟩ := by
                rw [addTerm_lookup_eq, hsh]
              have hfin := ih1 _ hadd
              rw [hfin, hterms]
              simp
            · intro _ habs
              rw [hterms] at habs
              simp at habs
            · intro hnone _
              have hadd : (addTerm c j st en term).lookup j = some ⟨st, en, [term]⟩ := by
                rw [addTerm_lookup_eq, hnone]
              have hfin := ih1 _ hadd
              refine ⟨st, en, hex, ?_⟩
              rw [hfin, hterms]
              rfl
          · have hres : locateSegment segments loc ≠ Int.ofNat j := by
              intro hc
              apply hij
              rw [hc]
              rfl
            have hterms : termsAt segments ((term, loc) :: rest) j
                = termsAt segments rest j := by
              unfold termsAt
              rw [List.filter_cons]
              rw [if_neg (by simpa using hres)]
            have hadd := addTerm_lookup_ne c ((locateSegment segments loc).toNat) j
              st en term (Ne.symm hij)
            obtain ⟨ih1, ih2, ih3⟩ := ih _ _ h j
            rw [hadd] at ih1 ih2 ih3
            rw [hterms]
            exact ⟨ih1, ih2, ih3⟩
        · exact GoOutcome.noConfusion hpp
        · exact GoOutcome.noConfusion hpp
    · exact GoOutcome.noConfusion h
    · exact GoOutcome.noConfusion h

/-- C4: aggregation produces exactly one cache entry (hence one
`SegmentHit`) per segment that received at least one (term, offset) match,
whose term list is exactly the terms resolving to that segment; the
emitted segment list is a permutation of the frozen cache; distinct term
counting matches the number of distinct accumulated terms; and in the two
scenarios, two distinct terms in one segment give one hit with distinct
term count 2, while one term matching twice gives one hit with distinct
term count 1 but a terms list of length 2. -/
theorem claim_C4 :
    (∀ (segments : List (Option ℚ)) (P : List (String × Nat)) (cache : Cache),
        processPairs segments [] P = .ok cache →
          ((cache.map Prod.fst).Nodup
           ∧ (∀ j : Nat, j ∈ cache.map Prod.fst ↔ termsAt segments P j ≠ [])
           ∧ (∀ e ∈ cache, e.2.SortedTerms = termsAt segments P e.1)))
    ∧ (∀ (hit : BleveHit) (sr : SearchResult), assembleHit hit = .ok sr →
        ∃ segments cache, hit.Fields = some segments
          ∧ processPairs segments [] (pairsOf hit.Locations) = .ok cache
          ∧ sr.Segments.Perm (cache.map freezeHit))
    ∧ (∀ e : Nat × SegmentHit, "" ∉ e.2.SortedTerms →
        (freezeHit e).NDistinctTerms = e.2.SortedTerms.dedup.length)
    ∧ assembleHit hitA = GoOutcome.ok ⟨"docA", 2, [⟨0, 5000000000, ["a", "b"]⟩]⟩
    ∧ (⟨0, 5000000000, ["a", "b"]⟩ : SegmentHit).NDistinctTerms = 2
    ∧ assembleHit hitB = GoOutcome.ok ⟨"docB", 2, [⟨0, 5000000000, ["a", "a"]⟩]⟩
    ∧ (⟨0, 5000000000, ["a", "a"]⟩ : SegmentHit).NDistinctTerms = 1
    ∧ (⟨0, 5000000000, ["a", "a"]⟩ : SegmentHit).SortedTerms.length = 2 := by
  refine ⟨?_, ?_, freezeHit_nDistinct, by decide, by decide, by decide, by decide, by decide⟩
  · intro segments P cache h
    have hnodup := processPairs_nodup segments P [] cache h (by simp)
    refine ⟨hnodup, ?_, ?_⟩
    · intro j
      obtain ⟨ih1, ih2, ih3⟩ := processPairs_lookup segments P [] cache h j
      constructor
      · intro hmem hterms
        have hnone := ih2 rfl hterms
        exact (lookup_eq_none_iff cache j).mp hnone hmem
      · intro hterms
        obtain ⟨st, en, _, hlook⟩ := ih3 rfl hterms
        by_contra hmem
        rw [← lookup_eq_none_iff] at hmem
        rw [hmem] at hlook
        exact Option.noConfusion hlook
    · intro e he
      obtain ⟨j0, sh0⟩ := e
      obtain ⟨ih1, ih2, ih3⟩ := processPairs_lookup segments P [] cache h j0
      have hlook := lookup_of_mem_nodup cache j0 sh0 hnodup he
      by_cases hterms : termsAt segments P j0 = []
      · have hn := ih2 rfl hterms
        rw [hn] at hlook
        exact Option.noConfusion hlook
      · obtain ⟨st, en, _, hlook2⟩ := ih3 rfl hterms
        rw [hlook] at hlook2
        injection hlook2 with heq
        rw [heq]
  · intro hit sr h
    obtain ⟨segments, cache, hf, hp, hseg⟩ := assembleHit_ok_segments hit sr h
    exact ⟨segments, cache, hf, hp, by rw [hseg]; exact List.perm_insertionSort hitLE _⟩

theorem claim_C4_witness :
    (([(0, (⟨0, 5000000000, ["a", "b"]⟩ : SegmentHit))] : Cache).map Prod.fst).Nodup :=
  (claim_C4.1 [some 0, some 5, some 50] [("a", 10), ("b", 20)]
    [(0, ⟨0, 5000000000, ["a", "b"]⟩)] (by decide)).1

/-! ## Round trip of the stored segment table -/

lemma goIntOfFloat_intCast (k : Int) : goIntOfFloat (k : ℚ) = k := by
  unfold goIntOfFloat
  by_cases h : (0 : ℚ) ≤ (k : ℚ)
  · rw [if_pos h, Int.floor_intCast]
  · rw [if_neg h, Int.ceil_intCast]

/-- `int(d.Seconds()) * int(time.Second)` recovers a duration that is a
whole number of seconds. -/
lemma seconds_roundTrip (n : Int) (h : (1000000000 : Int) ∣ n) :
    goIntOfFloat ((n : ℚ) / 1000000000) * 1000000000 = n := by
  obtain ⟨k, hk⟩ := h
  subst hk
  have hq : (((1000000000 * k : Int) : ℚ) / 1000000000) = (k : ℚ) := by
    push_cast
    field_simp
  rw [hq, goIntOfFloat_intCast]
  ring

/-- Decoding the flat serialisation of a segment list recovers every
triple, provided all times are whole numbers of seconds. -/
lemma decodeTriples_toFloats (segs : List transcriptionSegment)
    (h : ∀ s ∈ segs, (1000000000 : Int) ∣ s.StartTime ∧ (1000000000 : Int) ∣ s.EndTime) :
    decodeTriples
        ((segs.flatMap fun t => [t.toFloats.1, t.toFloats.2.1, t.toFloats.2.2]).map Option.some)
      = some (segs.map tripleOf) := by
  induction segs with
  | nil => rfl
  | cons s rest ih =>
    have hs := h s (List.mem_cons_self s rest)
    have hr : ∀ x ∈ rest, (1000000000 : Int) ∣ x.StartTime ∧ (1000000000 : Int) ∣ x.EndTime :=
      fun x hx => h x (List.mem_cons_of_mem s hx)
    show decodeTriples (some s.toFloats.1 :: some s.toFloats.2.1 :: some s.toFloats.2.2
        :: (rest.flatMap fun t => [t.toFloats.1, t.toFloats.2.1, t.toFloats.2.2]).map Option.some)
      = some ((s :: rest).map tripleOf)
    rw [decodeTriples, ih hr]
    unfold decode1 transcriptionSegment.toFloats
    dsimp only
    rw [seconds_roundTrip _ hs.1, seconds_roundTrip _ hs.2, Int.floor_natCast,
      Int.toNat_natCast]
    rfl

/-- The times recorded by the encoding loop come from the items. -/
lemma parseItems_times (items : List SubItem) :
    ∀ sb first, ∀ s ∈ (parseItems sb first items).2,
      ∃ it ∈ items, s.StartTime = it.StartAt ∧ s.EndTime = it.EndAt := by
  induction items with
  | nil =>
    intro sb first s hs
    simp [parseItems] at hs
  | cons it rest ih =>
    intro sb first s hs
    rw [parseItems] at hs
    dsimp only at hs
    rcases List.mem_cons.mp hs with rfl | hmem
    · exact ⟨it, List.mem_cons_self it rest, rfl, rfl⟩
    · obtain ⟨it', hit', h1, h2⟩ := ih _ false s hmem
      exact ⟨it', List.mem_cons_of_mem it hit', h1, h2⟩

/-- C8 (amended): encoding cues into a transcript document and decoding
the stored flat triple representation reproduces the same
`(start_time, end_time, end_offset)` sequence, provided every cue's times
are whole numbers of seconds (the decoder truncates to integer seconds). -/
theorem claim_C8_amended (items : List SubItem)
    (h : ∀ it ∈ items, (1000000000 : Int) ∣ it.StartAt ∧ (1000000000 : Int) ∣ it.EndAt) :
    decodeTriples ((ParseSubtitleFile items).Segments.map Option.some)
      = some ((parseItems "" true items).2.map tripleOf) := by
  unfold ParseSubtitleFile
  dsimp only
  apply decodeTriples_toFloats
  intro s hs
  obtain ⟨it, hit, h1, h2⟩ := parseItems_times items "" true s hs
  rw [h1, h2]
  exact h it hit

theorem claim_C8_amended_witness :
    decodeTriples
        ((ParseSubtitleFile [⟨2000000000, 3000000000, [["hi"]]⟩]).Segments.map Option.some)
      = some ((parseItems "" true [⟨2000000000, 3000000000, [["hi"]]⟩]).2.map tripleOf) :=
  claim_C8_amended [⟨2000000000, 3000000000, [["hi"]]⟩] (by
    intro it hit
    rw [List.mem_singleton] at hit
    subst hit
    exact ⟨⟨2, by norm_num⟩, ⟨3, by norm_num⟩⟩)

/-- C8 fails as stated: a cue starting at 1.5s is encoded as the float
1.5 and decoded back as 1s — the round trip loses sub-second precision. -/
theorem claim_C8_counterexample :
    (parseItems "" true [⟨1500000000, 2000000000, [["hi"]]⟩]).2
      = [⟨1500000000, 2000000000, 2⟩]
    ∧ decodeTriples
        ((ParseSubtitleFile [⟨1500000000, 2000000000, [["hi"]]⟩]).Segments.map Option.some)
        = some [(1000000000, 2000000000, 2)]
    ∧ ([(⟨1500000000, 2000000000, 2⟩ : transcriptionSegment)].map tripleOf)
        ≠ [(1000000000, 2000000000, (2 : Nat))] := by
  refine ⟨by decide, ?_, by decide⟩
  norm_num [ParseSubtitleFile, parseItems, addSubtitleItem, transcriptionSegment.toFloats,
    decodeTriples, decode1, goIntOfFloat]
  decide

/-! ## The encoder never fails -/

lemma parseItems_words_false (items : List SubItem) :
    ∀ sb, (parseItems sb false items).1 = sb ++ joinRest items := by
  induction items with
  | nil =>
    intro sb
    show sb = sb ++ ""
    simp
  | cons it rest ih =>
    intro sb
    rw [parseItems]
    dsimp only
    rw [ih, joinRest]
    simp [addSubtitleItem, String.append_assoc]

lemma parseItems_length (items : List SubItem) :
    ∀ sb first, (parseItems sb first items).2.length = items.length := by
  induction items with
  | nil => intro sb first; rfl
  | cons it rest ih =>
    intro sb first
    rw [parseItems]
    dsimp only
    rw [List.length_cons, ih]
    rfl

lemma flat3_length (segs : List transcriptionSegment) :
    (segs.flatMap fun t => [t.toFloats.1, t.toFloats.2.1, t.toFloats.2.2]).length
      = 3 * segs.length := by
  induction segs with
  | nil => rfl
  | cons s rest ih =>
    rw [List.flatMap_cons, List.length_append, ih, List.length_cons]
    simp
    ring

/-- C9 (amended): the encoding loop of `ParseSubtitleFile` never fails —
an empty cue sequence produces the empty transcription, and cues with
empty text are encoded like any other; the result is always the
newline-joined cue texts with exactly one (start, end, end_offset) triple
(three stored numbers) per cue. The only error return of the Go function
comes from the external subtitle parser (`astisub.OpenFile`). -/
theorem claim_C9_amended (items : List SubItem) :
    (ParseSubtitleFile items).Words = transcriptText items
    ∧ (ParseSubtitleFile items).Segments.length = 3 * items.length := by
  constructor
  · unfold ParseSubtitleFile
    dsimp only
    cases items with
    | nil => rfl
    | cons it rest =>
      rw [parseItems]
      dsimp only
      rw [parseItems_words_false, transcriptText]
      rfl
  · unfold ParseSubtitleFile
    dsimp only
    rw [flat3_length, parseItems_length]

/-- C9 fails as stated: `ParseSubtitleFile` succeeds on an empty cue
sequence (yielding an empty transcription) and on a cue with empty text
(yielding a segment whose end offset equals the previous offset). -/
theorem claim_C9_counterexample :
    ParseSubtitleFile [] = ⟨"", []⟩
    ∧ (ParseSubtitleFile [⟨2000000000, 3000000000, [[]]⟩]).Words = ""
    ∧ (ParseSubtitleFile [⟨2000000000, 3000000000, [[]]⟩]).Segments = [2, 3, 0] := by
  refine ⟨rfl, by decide, ?_⟩
  norm_num [ParseSubtitleFile, parseItems, addSubtitleItem, transcriptionSegment.toFloats]
  decide
